import Mathlib

/-!
Shallow embedding of `src/helper.py` (repository raui100/tgif).

The script builds, in a single module-level pass, the text of a Rust
constant `U8_TO_ARRAY_BOOL` mapping every byte value to its eight bits,
and prints it.  Python strings are modelled as `List Char`; the byte
values and loop indices are `Nat`.
-/

set_option maxRecDepth 100000
set_option maxHeartbeats 4000000

/-- Model of `np.binary_repr(n, width)` for nonnegative `n`: the binary
digit characters of `n`, most-significant first, zero-padded on the left
to the given width (`Nat.toDigits 2 n` is the unpadded binary digit
string of `n`, with `"0"` for zero, matching numpy). -/
def binary_repr (n width : Nat) : List Char :=
  let d := Nat.toDigits 2 n
  List.replicate (width - d.length) '0' ++ d

/-- One iteration of the `for n in range(256)` loop body of
`src/helper.py`: append `"["`, then for each character of the binary
representation append `"false, "` or `"true, "`, then replace the last
two characters (the trailing comma and space) by `"], "`.
The slice `s[:-2]` is `take (length - 2)`. -/
def entryStep (s : List Char) (n : Nat) : List Char :=
  let s1 := s ++ ['[']
  let s2 := (binary_repr n 8).foldl
    (fun acc c => if c = '0' then acc ++ "false, ".toList else acc ++ "true, ".toList) s1
  (s2.take (s2.length - 2)) ++ "], ".toList

/-- The full module-level computation of `src/helper.py`: the header,
the 256 loop iterations, then `s = s[:-1] + "];"` which removes the final
space and appends `"];"`.  This is the string passed to `print`. -/
def generate : List Char :=
  let s0 := "const U8_TO_ARRAY_BOOL: [[bool; 8]; 256] = [".toList
  let s := (List.range 256).foldl entryStep s0
  (s.take (s.length - 1)) ++ "];".toList

/-- The boolean sequence the script emits for byte value `n`: the
character-level branch of the inner loop (`'0'` gives `false`, anything
else gives `true`) applied to each character of `binary_repr n 8`. -/
def bitSeq (n : Nat) : List Bool :=
  (binary_repr n 8).map (fun c => if c = '0' then false else true)

/-- The Table of the data model: the 256 boolean sequences in order. -/
def table : List (List Bool) :=
  (List.range 256).map bitSeq

/-- The character-to-boolean branch exactly as written in the code:
`'0'` maps to `false`, any other character to `true`. -/
def charToBoolCode (c : Char) : Bool :=
  if c = '0' then false else true

/-- Modelled from the spec: the mapping described by the spec text, a
character is sent to `true` exactly when it is `'1'` (and `'0'` maps to
`false`). -/
def charToBoolSpec (c : Char) : Bool :=
  c == '1'

/-- The word the inner loop appends for one binary digit character. -/
def entryWord (c : Char) : List Char :=
  if c = '0' then "false, ".toList else "true, ".toList

/-- The text one loop iteration appends to the running string. -/
def entryText (n : Nat) : List Char :=
  entryStep [] n

/-- A flattened form of `generate`: the header, followed by the
concatenation of the 256 entry texts with the final space removed,
followed by `"];"`. -/
def generateFlat : List Char :=
  "const U8_TO_ARRAY_BOOL: [[bool; 8]; 256] = [".toList
    ++ (((List.range 256).flatMap entryText).take
          (((List.range 256).flatMap entryText).length - 1))
    ++ "];".toList

/-- One invocation of the script.  It reads no input, so a run is a
function of the trivial argument; `print` writes `generate` followed by
a newline to standard output. -/
def run_script : Unit → List Char :=
  fun _ => generate ++ ['\n']

/-- Modelled from the spec and the numpy documentation:
`np.binary_repr(n, width)` with a width too small for `n` is the one
latent failure of the script (numpy deprecates and will reject
insufficient widths); the fallible version reports it as an error. -/
def binary_reprE (n width : Nat) : Except String (List Char) :=
  if (Nat.toDigits 2 n).length ≤ width then
    Except.ok (binary_repr n width)
  else
    Except.error "insufficient width"

/-- The loop body of `src/helper.py` with the latent failure of
`np.binary_repr` made explicit. -/
def entryStepE (s : List Char) (n : Nat) : Except String (List Char) := do
  let d ← binary_reprE n 8
  let s1 := s ++ ['[']
  let s2 := d.foldl
    (fun acc c => if c = '0' then acc ++ "false, ".toList else acc ++ "true, ".toList) s1
  pure ((s2.take (s2.length - 2)) ++ "], ".toList)

/-- The full computation of `src/helper.py` with the latent failure
path made explicit. -/
def generateE : Except String (List Char) := do
  let s0 := "const U8_TO_ARRAY_BOOL: [[bool; 8]; 256] = [".toList
  let s ← (List.range 256).foldlM entryStepE s0
  pure ((s.take (s.length - 1)) ++ "];".toList)

/-- Joining a list of pieces with a separator between adjacent pieces. -/
def joinSep (sep : List Char) : List (List Char) → List Char
  | [] => []
  | [x] => x
  | x :: y :: t => x ++ sep ++ joinSep sep (y :: t)

/-- Modelled from the spec: the text of one inner array as the spec
describes it, the booleans of byte `n` (most-significant bit first,
element `i` true iff bit `7 - i` of `n` is set) rendered `true`/`false`,
comma-separated, wrapped in its own bracket. -/
def spec_entry (n : Nat) : List Char :=
  '[' :: (joinSep ", ".toList
    ((List.range 8).map (fun i => if n.testBit (7 - i) then "true".toList else "false".toList)))
    ++ [']']

/-- Modelled from the spec, amended by the code: the name/type prefix,
the 256 inner arrays comma-separated, and a trailing comma before the
closing `"];"`. -/
def spec_text : List Char :=
  "const U8_TO_ARRAY_BOOL: [[bool; 8]; 256] = [".toList
    ++ joinSep ", ".toList ((List.range 256).map spec_entry)
    ++ ",];".toList

/-! ### Structural lemmas flattening the fold -/

/-- A left fold that only appends to its accumulator is the accumulator
followed by the concatenation of the appended pieces. -/
theorem foldl_eq_append_flatMap {α β : Type} (f : List β → α → List β) (g : α → List β) :
    ∀ (l : List α), (∀ a ∈ l, ∀ s, f s a = s ++ g a) →
      ∀ (init : List β), l.foldl f init = init ++ l.flatMap g := by
  intro l
  induction l with
  | nil => intro _ init; simp
  | cons a t ih =>
    intro h init
    simp only [List.foldl_cons, List.flatMap_cons]
    rw [h a (by simp) init, ih (fun b hb s => h b (by simp [hb]) s), List.append_assoc]

/-- Taking all but the last `k` elements of an append whose right part
has at least `k` elements only trims the right part. -/
theorem take_append_sub {α : Type} (s u : List α) (k : Nat) (h : k ≤ u.length) :
    (s ++ u).take (s.length + u.length - k) = s ++ u.take (u.length - k) := by
  rw [List.take_append_eq_append_take]
  have h1 : s.length + u.length - k = s.length + (u.length - k) := by omega
  rw [h1, List.take_of_length_le (by omega)]
  have h2 : s.length + (u.length - k) - s.length = u.length - k := by omega
  rw [h2]

/-- Each binary digit character contributes a nonempty word, so the body
of an entry is nonempty for every byte value. -/
theorem entryBody_ne_nil (n : Nat) (hn : n < 256) :
    1 ≤ ((binary_repr n 8).flatMap entryWord).length := by
  revert n hn
  decide

/-- The inner character loop of an entry, flattened. -/
theorem inner_foldl_eq (n : Nat) (init : List Char) :
    (binary_repr n 8).foldl
        (fun acc c => if c = '0' then acc ++ "false, ".toList else acc ++ "true, ".toList) init
      = init ++ (binary_repr n 8).flatMap entryWord := by
  apply foldl_eq_append_flatMap
  intro c _ s
  unfold entryWord
  split <;> rfl

/-- A loop iteration only appends to the running string. -/
theorem entryStep_append (n : Nat) (hn : n < 256) (s : List Char) :
    entryStep s n = s ++ entryText n := by
  unfold entryText entryStep
  simp only [inner_foldl_eq]
  have hB := entryBody_ne_nil n hn
  set B := (binary_repr n 8).flatMap entryWord with hBdef
  have hleft : s ++ ['['] ++ B = s ++ ('[' :: B) := by simp
  have hright : ([] : List Char) ++ ['['] ++ B = [] ++ ('[' :: B) := by simp
  rw [hleft, hright, List.nil_append]
  have h2 : 2 ≤ ('[' :: B).length := by simp; omega
  have hlen : (s ++ ('[' :: B)).length = s.length + ('[' :: B).length := List.length_append _ _
  rw [hlen, take_append_sub s ('[' :: B) 2 h2, List.append_assoc]

/-- The 256-iteration fold, flattened. -/
theorem fold_decomp :
    (List.range 256).foldl entryStep "const U8_TO_ARRAY_BOOL: [[bool; 8]; 256] = [".toList
      = "const U8_TO_ARRAY_BOOL: [[bool; 8]; 256] = [".toList
          ++ (List.range 256).flatMap entryText := by
  apply foldl_eq_append_flatMap
  intro a ha s
  exact entryStep_append a (List.mem_range.mp ha) s

/-- `generate` equals the flat form. -/
theorem generate_eq_flat : generate = generateFlat := by
  simp only [generate, generateFlat]
  rw [fold_decomp]
  set s0 := "const U8_TO_ARRAY_BOOL: [[bool; 8]; 256] = [".toList
  set J := (List.range 256).flatMap entryText with hJ
  have hJ1 : 1 ≤ J.length := by
    have hsplit : List.range 256 = List.range 255 ++ [255] := by decide
    rw [hJ, hsplit, List.flatMap_append]
    simp only [List.length_append]
    have : 1 ≤ ([255].flatMap entryText).length := by decide
    omega
  have hlen : (s0 ++ J).length = s0.length + J.length := List.length_append _ _
  rw [hlen, take_append_sub s0 J 1 hJ1, List.append_assoc]

/-- The text of a loop iteration is the spec-side inner array followed
by a comma and a space. -/
theorem entryText_eq_spec_entry (n : Nat) (hn : n < 256) :
    entryText n = spec_entry n ++ ", ".toList := by
  revert n hn
  decide

/-- Concatenating pieces that each end in the separator is the
separator-joined pieces followed by one separator. -/
theorem flatMap_eq_joinSep (sep : List Char) (f g : Nat → List Char) :
    ∀ (l : List Nat), l ≠ [] → (∀ a ∈ l, f a = g a ++ sep) →
      l.flatMap f = joinSep sep (l.map g) ++ sep := by
  intro l
  induction l with
  | nil => intro h; exact absurd rfl h
  | cons a t ih =>
    intro _ h
    cases t with
    | nil =>
      simp only [List.flatMap_cons, List.flatMap_nil, List.append_nil, List.map_cons,
        List.map_nil]
      rw [h a (by simp)]
      rfl
    | cons b t2 =>
      rw [List.flatMap_cons, h a (by simp), ih (by simp) (fun x hx => h x (by simp [hx]))]
      simp only [List.map_cons, joinSep, List.append_assoc]

/-- The body of the output is the spec-side inner arrays joined by
comma-space, followed by one trailing comma-space. -/
theorem flat_eq_joined :
    (List.range 256).flatMap entryText
      = joinSep ", ".toList ((List.range 256).map spec_entry) ++ ", ".toList := by
  apply flatMap_eq_joinSep
  · decide
  · intro a ha
    exact entryText_eq_spec_entry a (List.mem_range.mp ha)

/-- The generated string is exactly the spec-side text with the trailing
comma the code leaves before the closing bracket. -/
theorem generate_eq_spec_text : generate = spec_text := by
  rw [generate_eq_flat]
  simp only [generateFlat, spec_text]
  rw [flat_eq_joined]
  set I := joinSep ", ".toList ((List.range 256).map spec_entry) with hI
  have hlen : (I ++ ", ".toList).length = I.length + (", ".toList).length :=
    List.length_append _ _
  rw [hlen, take_append_sub I (", ".toList) 1 (by decide)]
  have hc : (", ".toList).take ((", ".toList).length - 1) = [','] := by decide
  rw [hc]
  have hcat : ([','] : List Char) ++ "];".toList = ",];".toList := by decide
  simp only [List.append_assoc, hcat]

/-- The generated string decomposed around its concrete 51-character
tail. -/
theorem generate_decomp :
    generate = ("const U8_TO_ARRAY_BOOL: [[bool; 8]; 256] = [".toList
        ++ (List.range 255).flatMap entryText)
      ++ "[true, true, true, true, true, true, true, true],];".toList := by
  rw [generate_eq_flat]
  simp only [generateFlat]
  have hsplit : List.range 256 = List.range 255 ++ [255] := by decide
  rw [hsplit, List.flatMap_append]
  have he : [255].flatMap entryText
      = "[true, true, true, true, true, true, true, true], ".toList := by decide
  rw [he]
  set J2 := (List.range 255).flatMap entryText
  set e := "[true, true, true, true, true, true, true, true], ".toList with hedef
  have hlen : (J2 ++ e).length = J2.length + e.length := List.length_append _ _
  rw [hlen, take_append_sub J2 e 1 (by rw [hedef]; decide)]
  have ht : e.take (e.length - 1)
      = "[true, true, true, true, true, true, true, true],".toList := by
    rw [hedef]; decide
  rw [ht]
  have hcat : "[true, true, true, true, true, true, true, true],".toList ++ "];".toList
      = "[true, true, true, true, true, true, true, true],];".toList := by decide
  simp only [List.append_assoc, hcat]

/-- Two suffixes of the same list with equal lengths are equal. -/
theorem suffix_determined {α : Type} (u v s : List α) (hu : u <:+ s) (hv : v <:+ s)
    (h : u.length = v.length) : u = v := by
  obtain ⟨t1, h1⟩ := hu
  obtain ⟨t2, h2⟩ := hv
  rw [← h2] at h1
  exact (List.append_inj' h1 h).2

/-- Joining pieces free of a character with a separator free of it stays
free of it. -/
theorem count_joinSep_zero (c : Char) (sep : List Char) (hsep : sep.count c = 0) :
    ∀ l : List (List Char), (∀ x ∈ l, x.count c = 0) → (joinSep sep l).count c = 0 := by
  intro l
  induction l with
  | nil => intro _; rfl
  | cons a t ih =>
    intro h
    cases t with
    | nil => exact h a (by simp)
    | cons b t2 =>
      simp only [joinSep, List.count_append]
      rw [h a (by simp), hsep, ih (fun x hx => h x (by simp [hx]))]

/-- No inner array text contains a newline. -/
theorem spec_entry_count_newline (n : Nat) (hn : n < 256) :
    (spec_entry n).count '\n' = 0 := by
  revert n hn
  decide

/-- Every byte value fits in eight binary digits. -/
theorem toDigits_length_le (n : Nat) (hn : n < 256) :
    (Nat.toDigits 2 n).length ≤ 8 := by
  revert n hn
  decide

/-- Over the fixed domain the fallible loop body never errs. -/
theorem entryStepE_ok (n : Nat) (hn : n < 256) (s : List Char) :
    entryStepE s n = Except.ok (entryStep s n) := by
  simp only [entryStepE, entryStep, binary_reprE, if_pos (toDigits_length_le n hn)]
  rfl

/-- A monadic fold over `Except` whose body never errs is the pure fold. -/
theorem foldlM_ok :
    ∀ (l : List Nat), (∀ a ∈ l, ∀ s, entryStepE s a = Except.ok (entryStep s a)) →
      ∀ init, l.foldlM entryStepE init = Except.ok (l.foldl entryStep init) := by
  intro l
  induction l with
  | nil => intro _ init; rfl
  | cons a t ih =>
    intro h init
    simp only [List.foldlM, List.foldl_cons]
    rw [h a (by simp) init]
    have hbind : (Except.ok (entryStep init a) >>= fun s => t.foldlM entryStepE s)
        = t.foldlM entryStepE (entryStep init a) := rfl
    rw [hbind, ih (fun b hb s => h b (by simp [hb]) s)]

/-- The last three characters of the generated string are comma, right
bracket, semicolon. -/
theorem generate_suffix_comma : ",];".toList <:+ generate := by
  rw [generate_decomp]
  exact List.IsSuffix.trans
    ⟨"[true, true, true, true, true, true, true, true]".toList, by decide⟩
    (List.suffix_append _ _)

/-- The generated string does not end in two adjacent right brackets
before the semicolon. -/
theorem generate_no_double_bracket : ¬ ("]];".toList <:+ generate) := by
  intro h
  have := suffix_determined _ _ _ h generate_suffix_comma (by decide)
  exact absurd this (by decide)

/-! ### The claims -/

/-- C1: for every byte value `n` and position `i`, the `i`-th emitted
boolean is bit `7 - i` of `n`, and mapping the sequence back with
`true` to `'1'` and `false` to `'0'` yields the zero-padded 8-bit
binary representation of `n`. -/
theorem claim_C1 (n : Nat) (hn : n < 256) (i : Nat) (hi : i < 8) :
    (bitSeq n).getD i false = n.testBit (7 - i)
      ∧ (bitSeq n).map (fun b => if b then '1' else '0') = binary_repr n 8 := by
  revert n hn i hi
  decide

/-- Witness for C1 at byte 5, position 2. -/
theorem claim_C1_witness :
    (5 : Nat) < 256 ∧ (2 : Nat) < 8
      ∧ ((bitSeq 5).getD 2 false = (5 : Nat).testBit (7 - 2)
          ∧ (bitSeq 5).map (fun b => if b then '1' else '0') = binary_repr 5 8) :=
  ⟨by decide, by decide, claim_C1 5 (by decide) 2 (by decide)⟩

/-- C2 counterexample: the generated text does not end with `"]];"`;
the code leaves a comma between the last inner array and the outer
closing bracket. -/
theorem claim_C2_counterexample : ¬ ("]];".toList <:+ generate) :=
  generate_no_double_bracket

/-- C2 amended: the generated text is the 256 inner arrays
comma-separated inside the outer bracket with the name/type prefix, but
with a trailing comma before the closing `"];"`, so it ends with
`"[true, true, true, true, true, true, true, true],];"`. -/
theorem claim_C2 :
    generate = spec_text
      ∧ "[true, true, true, true, true, true, true, true],];".toList <:+ generate := by
  refine ⟨generate_eq_spec_text, ?_⟩
  rw [generate_decomp]
  exact List.suffix_append _ _

/-- C3: the table has exactly 256 entries and every entry has exactly
8 booleans. -/
theorem claim_C3 :
    table.length = 256 ∧ table.all (fun e => e.length == 8) = true := by
  decide

/-- C4: byte 0 maps to all-false and byte 255 maps to all-true. -/
theorem claim_C4 :
    bitSeq 0 = [false, false, false, false, false, false, false, false]
      ∧ bitSeq 255 = [true, true, true, true, true, true, true, true] := by
  decide

/-- C5: byte 1 maps to false everywhere except the last position, and
byte 128 maps to true only in the first position. -/
theorem claim_C5 :
    bitSeq 1 = [false, false, false, false, false, false, false, true]
      ∧ bitSeq 128 = [true, false, false, false, false, false, false, false] := by
  decide

/-- C6: the generator is deterministic: any two runs, which take no
input, produce byte-identical output text. -/
theorem claim_C6 (u v : Unit) : run_script u = run_script v := rfl

/-- Witness for C6: two concrete runs agree. -/
theorem claim_C6_witness : run_script () = run_script () := claim_C6 () ()

/-- C7: the computation is total over its fixed domain: with the one
latent failure path (insufficient binary width) made explicit, the
program never errs and returns exactly the generated text. -/
theorem claim_C7 : generateE = Except.ok generate := by
  simp only [generateE, generate]
  rw [foldlM_ok (List.range 256) (fun a ha s => entryStepE_ok a (List.mem_range.mp ha) s)]
  rfl

/-- C8: the running string carries a comma-space after the 256th inner
array as well, so after the final one-character trim the generated text
ends with `"],];"` and not with `"]];"`. -/
theorem claim_C8 :
    ("], ".toList <:+ (List.range 256).foldl entryStep
        "const U8_TO_ARRAY_BOOL: [[bool; 8]; 256] = [".toList)
      ∧ ("],];".toList <:+ generate)
      ∧ ¬ ("]];".toList <:+ generate) := by
  refine ⟨?_, ?_, generate_no_double_bracket⟩
  · rw [fold_decomp]
    have hsplit : List.range 256 = List.range 255 ++ [255] := by decide
    rw [hsplit, List.flatMap_append]
    have he : [255].flatMap entryText
        = "[true, true, true, true, true, true, true, true], ".toList := by decide
    rw [he, ← List.append_assoc]
    exact List.IsSuffix.trans
      ⟨"[true, true, true, true, true, true, true, true".toList, by decide⟩
      (List.suffix_append _ _)
  · rw [generate_decomp]
    exact List.IsSuffix.trans
      ⟨"[true, true, true, true, true, true, true, true".toList, by decide⟩
      (List.suffix_append _ _)

/-- C9: the code maps `'0'` to false and everything else to true; over
the fixed domain every character is `'0'` or `'1'`, so the branch agrees
with the spec mapping sending exactly `'1'` to true. -/
theorem claim_C9 (n : Nat) (hn : n < 256) :
    (∀ c ∈ binary_repr n 8, c = '0' ∨ c = '1')
      ∧ (binary_repr n 8).map charToBoolCode = (binary_repr n 8).map charToBoolSpec := by
  revert n hn
  decide

/-- Witness for C9 at byte 5. -/
theorem claim_C9_witness :
    (5 : Nat) < 256
      ∧ ((∀ c ∈ binary_repr 5 8, c = '0' ∨ c = '1')
          ∧ (binary_repr 5 8).map charToBoolCode = (binary_repr 5 8).map charToBoolSpec) :=
  ⟨by decide, claim_C9 5 (by decide)⟩

/-- C10: the generated string itself contains no newline; the only
newline in what the script writes is the one appended by `print`. -/
theorem claim_C10 :
    generate.count '\n' = 0 ∧ (run_script ()).count '\n' = 1 := by
  have hzero : generate.count '\n' = 0 := by
    rw [generate_eq_spec_text]
    simp only [spec_text, List.count_append]
    have h1 : ("const U8_TO_ARRAY_BOOL: [[bool; 8]; 256] = [".toList).count '\n' = 0 := by
      decide
    have h2 : (",];".toList).count '\n' = 0 := by decide
    have h3 : (joinSep ", ".toList ((List.range 256).map spec_entry)).count '\n' = 0 := by
      apply count_joinSep_zero _ _ (by decide)
      intro x hx
      obtain ⟨n, hn, rfl⟩ := List.mem_map.mp hx
      exact spec_entry_count_newline n (List.mem_range.mp hn)
    rw [h1, h2, h3]
  refine ⟨hzero, ?_⟩
  simp only [run_script, List.count_append, hzero]
  decide
